import Mathlib

/-!
A verification development for the interactive smart-calculator program
(`calculator.py`).

The Python source is embedded shallowly:

* each Python function becomes a Lean definition with the same name
  (`infix_to_rpn`, `rpn_to_result`, `parse_expression`, `parse_assignment`);
* the scanning `while` loop of `infix_to_rpn` becomes a step function
  (`step`, split into the unary phase, the literal phase `litPhase` and
  the operator phase `opPhase`, exactly following the order of the three
  blocks in the Python loop body) iterated by `scanLoop`; `scanLoop`
  carries a fuel parameter that is proved sufficient below (each loop
  iteration strictly increases the scan index, so `length + 1` units of
  fuel can never run out — see the termination theorems);
* Python's dynamically typed values are the tagged type `PyVal`; Python
  float values (which this program can produce via `**` with a negative
  exponent) are abstracted to the tag `PyVal.flt`, since no property
  below depends on a float's numeric value;
* an uncaught Python exception (for example `TypeError` from arithmetic
  on a string operand) is modelled by the result `none`;
* Python's string membership test `x in s` (a substring test) is the
  boolean `pyIn`; the global dict `variables` is passed explicitly as an
  `Env`.
-/

/-- Elements of the list built by `infix_to_rpn` (Python keeps ints and
strings — operator symbols and variable names — in one list). -/
inductive Tok where
  | int (n : Int)
  | str (s : String)
  deriving DecidableEq, Repr

/-- Boolean test that `xs` starts with pattern `p`. -/
def startsWithList : List Char → List Char → Bool
  | [], _ => true
  | _ :: _, [] => false
  | a :: as, b :: bs => a == b && startsWithList as bs

/-- Python's substring containment on character lists: `contSub p ys`
holds when `p` occurs contiguously inside `ys`. -/
def contSub (p : List Char) : List Char → Bool
  | [] => startsWithList p []
  | y :: ys => startsWithList p (y :: ys) || contSub p ys

/-- Python's `s in pat` for strings (substring test). -/
def pyIn (s pat : String) : Bool := contSub s.data pat.data

/-- Python's `c in pat` for a single character. -/
def pyInC (c : Char) (pat : String) : Bool := contSub [c] pat.data

/-- State of the scanning loop of `infix_to_rpn`: the output list
`result`, the operator stack (head = top of Python's deque) and the scan
index `i`. -/
structure St where
  result : List Tok
  stack : List String
  i : Nat
  deriving DecidableEq, Repr

/-- Outcome of one iteration of the scanning loop: `return "Error"` or
the updated state. -/
inductive StepOut where
  | error
  | state (st : St)
  deriving DecidableEq, Repr

/-- Outcome of the whole scan: `"Error"`, the finished output list, or
exhaustion of the fuel parameter (proved unreachable below). -/
inductive ScanRes where
  | fuelOut
  | error
  | ok (result : List Tok)
  deriving DecidableEq, Repr

/-- The maximal run of digits starting at position `i`
(Python lines 96-99: `while i < len(infix) and infix[i] in string.digits`). -/
def digitRun (cs : List Char) (i : Nat) : List Char :=
  (cs.drop i).takeWhile (fun c => c.isDigit)

/-- Value accumulated by `integer = integer * 10 + int(infix[i])`. -/
def pyDigitsVal (ds : List Char) : Nat :=
  ds.foldl (fun a c => a * 10 + (c.toNat - '0'.toNat)) 0

/-- The maximal run of ASCII letters starting at position `i`
(Python lines 104-107). -/
def letterRun (cs : List Char) (i : Nat) : List Char :=
  (cs.drop i).takeWhile (fun c => c.isAlpha)

/-- Length of the run of `+` characters from position `i`
(Python lines 127-128). -/
def plusRun (cs : List Char) (i : Nat) : Nat :=
  ((cs.drop i).takeWhile (fun c => c = '+')).length

/-- Length of the run of `-` characters from position `i`, the counter
`minuses` of Python lines 134-137. -/
def minusRun (cs : List Char) (i : Nat) : Nat :=
  ((cs.drop i).takeWhile (fun c => c = '-')).length

/-- Python `while stack and stack[-1] in pat: result.append(stack.pop())`
(lines 124-125, 132-133, 147-148). -/
def popWhileIn (pat : String) : List Tok → List String → List Tok × List String
  | res, [] => (res, [])
  | res, t :: st =>
    if pyIn t pat then popWhileIn pat (res ++ [Tok.str t]) st else (res, t :: st)

/-- Python line 156: `while stack and stack[-1] == "^#"` — note that the
source compares the stack top with the two-character string `"^#"` (not a
membership test), so this loop never pops any of the one-character
symbols that are actually pushed. -/
def popWhileHatHash : List Tok → List String → List Tok × List String
  | res, [] => (res, [])
  | res, t :: st =>
    if t = "^#" then popWhileHatHash (res ++ [Tok.str t]) st else (res, t :: st)

/-- Python lines 163-169: pop operators to the output until the matching
`(` is found and discarded; `none` if the stack empties first. -/
def popToLParen : List Tok → List String → Option (List Tok × List String)
  | _, [] => none
  | res, t :: st =>
    if t = "(" then some (res, st) else popToLParen (res ++ [Tok.str t]) st

/-- The operator/parenthesis block of the loop body (Python lines
115-169): runs when the current character is one of `+-*/^()`, otherwise
leaves the state unchanged. -/
def opPhase (cs : List Char) (res : List Tok) (stack : List String) (i : Nat) : StepOut :=
  if i < cs.length ∧ pyInC (cs.getD i ' ') "+-*/^()" = true then
    if cs.getD i ' ' = '(' then
      .state ⟨res, "(" :: stack, i + 1⟩
    else if cs.getD i ' ' = '+' then
      .state ⟨(popWhileIn "+-*/^#" res stack).1, "+" :: (popWhileIn "+-*/^#" res stack).2,
        i + plusRun cs i⟩
    else if cs.getD i ' ' = '-' then
      .state ⟨(popWhileIn "+-*/^#" res stack).1,
        (if minusRun cs i % 2 = 1 then "-" else "+") :: (popWhileIn "+-*/^#" res stack).2,
        i + minusRun cs i⟩
    else if cs.getD i ' ' = '*' ∨ cs.getD i ' ' = '/' then
      if i < cs.length - 1 ∧ cs.getD (i + 1) ' ' = cs.getD i ' ' then .error
      else
        .state ⟨(popWhileIn "*/^#" res stack).1,
          String.singleton (cs.getD i ' ') :: (popWhileIn "*/^#" res stack).2, i + 1⟩
    else if cs.getD i ' ' = '^' then
      if i < cs.length - 1 ∧ cs.getD (i + 1) ' ' = '^' then .error
      else
        .state ⟨(popWhileHatHash res stack).1, "^" :: (popWhileHatHash res stack).2, i + 1⟩
    else
      match popToLParen res stack with
      | none => .error
      | some pr => .state ⟨pr.1, pr.2, i + 1⟩
  else .state ⟨res, stack, i⟩

/-- The literal/identifier block followed by the operator block (Python
lines 92-169): an integer or identifier run is appended to the output,
an unacceptable character is an error, and then the operator block runs
on the same iteration. -/
def litPhase (cs : List Char) (res : List Tok) (stack : List String) (i : Nat) : StepOut :=
  if i < cs.length ∧ ((cs.getD i ' ').isDigit = true ∨ (cs.getD i ' ').isAlpha = true) then
    if (cs.getD i ' ').isDigit then
      opPhase cs (res ++ [Tok.int (pyDigitsVal (digitRun cs i))]) stack
        (i + (digitRun cs i).length)
    else
      opPhase cs (res ++ [Tok.str (String.mk (letterRun cs i))]) stack
        (i + (letterRun cs i).length)
  else if i < cs.length ∧ ¬ pyInC (cs.getD i ' ') "+-*/^()" = true then .error
  else opPhase cs res stack i

/-- One full iteration of the scanning loop (Python lines 78-169),
starting with the unary-sign block of lines 82-89; only called when
`st.i < cs.length`. -/
def step (cs : List Char) (st : St) : StepOut :=
  if pyInC (cs.getD st.i ' ') "+-" = true ∧
      (st.i = 0 ∨ pyInC (cs.getD (st.i - 1) ' ') "^*/+-(" = true) then
    if st.i = cs.length - 1 ∨
        (¬ (cs.getD (st.i + 1) ' ').isDigit = true ∧
         ¬ (cs.getD (st.i + 1) ' ').isAlpha = true ∧
         cs.getD (st.i + 1) ' ' ≠ '(') then
      .error
    else
      litPhase cs st.result
        (if cs.getD st.i ' ' = '-' then "#" :: st.stack else st.stack) (st.i + 1)
  else litPhase cs st.result st.stack st.i

/-- Python lines 172-175: append all remaining operators from the stack
to the output; a remaining `(` is an error. -/
def drain : List Tok → List String → ScanRes
  | res, [] => .ok res
  | res, t :: st => if t = "(" then .error else drain (res ++ [Tok.str t]) st

/-- The scanning loop `while i < len(infix)` (Python line 78) followed by
the final drain.  `fuel` bounds the number of iterations; it is proved
below that every iteration strictly increases `i`, so the fuel chosen in
`infix_to_rpn` can never run out. -/
def scanLoop (fuel : Nat) (cs : List Char) (st : St) : ScanRes :=
  if st.i < cs.length then
    match fuel with
    | 0 => .fuelOut
    | fuel' + 1 =>
      match step cs st with
      | .error => .error
      | .state st' => scanLoop fuel' cs st'
  else drain st.result st.stack

/-- Python `infix_to_rpn` (lines 60-177).  `none` models the return value
`"Error"`. -/
def infix_to_rpn (s : String) : Option (List Tok) :=
  match scanLoop (s.length + 1) s.data ⟨[], [], 0⟩ with
  | .ok r => some r
  | .error => none
  | .fuelOut => none

/-- Proof helper: the rest of the scan when control is at the start of the
operator block at position `i` (a mid-iteration point of the Python
loop). -/
def scanFrom (fuel : Nat) (cs : List Char) (res : List Tok) (stack : List String) (i : Nat) :
    ScanRes :=
  match opPhase cs res stack i with
  | .error => .error
  | .state st => scanLoop fuel cs st

/-- Python runtime values reachable in this program: ints, strings and
floats.  Floats (producible only by `**` with a negative exponent) are
abstracted to a single tag, as no claim depends on a float's value. -/
inductive PyVal where
  | int (n : Int)
  | str (s : String)
  | flt
  deriving DecidableEq, Repr

/-- The global dict `variables` (line 231). -/
def Env : Type := String → Option PyVal

/-- Python `n * s` for an int and a string: the string repeated `n` times
(empty for `n ≤ 0`). -/
def pyStrTimes (n : Int) (s : String) : String :=
  String.mk (List.flatten (List.replicate n.toNat s.data))

/-- Python `x + y` on this program's values; `none` is a `TypeError`. -/
def pyAdd : PyVal → PyVal → Option PyVal
  | .int a, .int b => some (.int (a + b))
  | .str a, .str b => some (.str (a ++ b))
  | .flt, .int _ | .int _, .flt | .flt, .flt => some .flt
  | _, _ => none

/-- Python `x - y`. -/
def pySub : PyVal → PyVal → Option PyVal
  | .int a, .int b => some (.int (a - b))
  | .flt, .int _ | .int _, .flt | .flt, .flt => some .flt
  | _, _ => none

/-- Python `x * y` (an int times a string is string repetition). -/
def pyMul : PyVal → PyVal → Option PyVal
  | .int a, .int b => some (.int (a * b))
  | .int a, .str s => some (.str (pyStrTimes a s))
  | .str s, .int a => some (.str (pyStrTimes a s))
  | .flt, .int _ | .int _, .flt | .flt, .flt => some .flt
  | _, _ => none

/-- Python `x ** y`: an int to a non-negative int power is an int; a
negative exponent gives a float (or raises `ZeroDivisionError` for base
0, modelled as `none`); float cases are abstracted to `.flt`. -/
def pyPow : PyVal → PyVal → Option PyVal
  | .int a, .int b =>
    if 0 ≤ b then some (.int (a ^ b.toNat)) else if a = 0 then none else some .flt
  | .flt, .int _ | .int _, .flt | .flt, .flt => some .flt
  | _, _ => none

/-- Python `x // y` (floor division) for a non-zero divisor.  A float
divisor's value is abstracted away (it may be `0.0` and raise), so those
cases are modelled as `none`; they are unreachable in every property
proved below. -/
def pyFloorDiv : PyVal → PyVal → Option PyVal
  | .int a, .int b => some (.int (Int.fdiv a b))
  | .flt, .int _ => some .flt
  | _, _ => none

/-- The evaluation loop of `rpn_to_result` (Python lines 193-228),
scanning the RPN list with a value stack (head = top).  Branch order
follows the source: int push, `#`, the five binary operators (guarded by
the substring test `rpn_list[i] in "+-*/^"` and the two-operand check),
then variable lookup.  A token that passes the substring test but equals
none of the five operators (e.g. the string `"+-"`) matches no Python
branch and leaves the stack unchanged, as in the source. -/
def evalRpn (env : Env) : List Tok → List PyVal → Option PyVal
  | [], stack =>
    if stack.length > 1 then some (.str "Invalid expression")
    else
      match stack with
      | [] => some (.str "")
      | v :: _ => some v
  | .int n :: rest, stack => evalRpn env rest (.int n :: stack)
  | .str s :: rest, stack =>
    if s = "#" then
      match stack with
      | [] => some (.str "Invalid expression")
      | v :: st =>
        match pyMul (.int (-1)) v with
        | some w => evalRpn env rest (w :: st)
        | none => none
    else if pyIn s "+-*/^" then
      match stack with
      | d :: x :: st =>
        if s = "+" then
          match pyAdd d x with
          | some w => evalRpn env rest (w :: st)
          | none => none
        else if s = "*" then
          match pyMul d x with
          | some w => evalRpn env rest (w :: st)
          | none => none
        else if s = "^" then
          match pyPow x d with
          | some w => evalRpn env rest (w :: st)
          | none => none
        else if s = "-" then
          match pySub x d with
          | some w => evalRpn env rest (w :: st)
          | none => none
        else if s = "/" then
          if d = .int 0 then some (.str "Invalid expression")
          else
            match pyFloorDiv x d with
            | some w => evalRpn env rest (w :: st)
            | none => none
        else evalRpn env rest (d :: x :: st)
      | _ => some (.str "Invalid expression")
    else
      match env s with
      | some v => evalRpn env rest (v :: stack)
      | none => some (.str "Unknown variable")

/-- Python `rpn_to_result` (lines 180-228). -/
def rpn_to_result (rpn : List Tok) (env : Env) : Option PyVal :=
  evalRpn env rpn []

/-- Python `parse_expression` (lines 47-57). -/
def parse_expression (s : String) (env : Env) : Option PyVal :=
  match infix_to_rpn s with
  | none => some (.str "Invalid expression")
  | some rpn => rpn_to_result rpn env

/-- Python `str.isalpha`: non-empty and all alphabetic characters. -/
def pyIsAlpha (s : String) : Bool :=
  !s.data.isEmpty && s.data.all (fun c => c.isAlpha)

/-- Python `line.split("=", 1)`: the parts before and after the first
`=`.  (`parse_assignment` is only dispatched to for lines that contain
`=`, so the no-`=` case is immaterial.) -/
def splitFirstEq : List Char → List Char × List Char
  | [] => ([], [])
  | c :: cs =>
    if c = '=' then ([], cs)
    else ((c :: (splitFirstEq cs).1), (splitFirstEq cs).2)

/-- Python `parse_assignment` (lines 19-44).  The returned pair is the
printed message (`none` = silent success) and the updated environment
(the global dict `variables`, here the parameter `env`); the outer
`none` models an uncaught exception. -/
def parse_assignment (line : String) (env : Env) : Option (Option String × Env) :=
  let p := splitFirstEq line.data
  let lhs : String := String.mk p.1
  let rhs : String := String.mk p.2
  if lhs = "" then some (some "Invalid expression", env)
  else if ¬ pyIsAlpha lhs = true then some (some "Invalid identifier", env)
  else if rhs = "" then some (some "Invalid assignment", env)
  else if pyIsAlpha rhs = true ∧ env rhs = none then
    some (some "Unknown variable", env)
  else
    match parse_expression rhs env with
    | none => none
    | some result =>
      if result = .str "Invalid expression" ∨ result = .str "Unknown variable" then
        some (some "Invalid assignment", env)
      else some (none, fun s => if s = lhs then some result else env s)


theorem drop_cons_getD (cs : List Char) (i : Nat) (h : i < cs.length) :
    cs.drop i = cs.getD i ' ' :: cs.drop (i + 1) := by
  rw [List.drop_eq_getElem_cons h, List.getD_eq_getElem cs ' ' h]

theorem takeWhile_drop_pos {p : Char → Bool} {cs : List Char} {i : Nat}
    (h : i < cs.length) (hp : p (cs.getD i ' ') = true) :
    1 ≤ ((cs.drop i).takeWhile p).length := by
  rw [drop_cons_getD cs i h, List.takeWhile_cons, if_pos hp]
  simp

theorem plusRun_pos {cs : List Char} {i : Nat}
    (h : i < cs.length) (hc : cs.getD i ' ' = '+') : 1 ≤ plusRun cs i := by
  unfold plusRun
  refine takeWhile_drop_pos h ?_
  rw [hc]
  decide

theorem minusRun_pos {cs : List Char} {i : Nat}
    (h : i < cs.length) (hc : cs.getD i ' ' = '-') : 1 ≤ minusRun cs i := by
  unfold minusRun
  refine takeWhile_drop_pos h ?_
  rw [hc]
  decide

theorem opPhase_mono {cs : List Char} {res : List Tok} {stack : List String} {i : Nat} {st : St}
    (h : opPhase cs res stack i = .state st) : i ≤ st.i := by
  unfold opPhase at h
  repeat' split at h
  all_goals (first
    | (injection h with h; subst h; dsimp only; omega)
    | cases h)

theorem opPhase_strict {cs : List Char} {res : List Tok} {stack : List String} {i : Nat} {st : St}
    (hi : i < cs.length) (hop : pyInC (cs.getD i ' ') "+-*/^()" = true)
    (h : opPhase cs res stack i = .state st) : i < st.i := by
  unfold opPhase at h
  rw [if_pos ⟨hi, hop⟩] at h
  split at h
  · injection h with h; subst h; dsimp only; omega
  · split at h
    · rename_i hplus
      injection h with h; subst h; dsimp only
      have := plusRun_pos hi hplus
      omega
    · split at h
      · rename_i hminus
        injection h with h; subst h; dsimp only
        have := minusRun_pos hi hminus
        omega
      · split at h
        · split at h
          · cases h
          · injection h with h; subst h; dsimp only; omega
        · split at h
          · split at h
            · cases h
            · injection h with h; subst h; dsimp only; omega
          · split at h
            · cases h
            · injection h with h; subst h; dsimp only; omega

theorem litPhase_mono {cs : List Char} {res : List Tok} {stack : List String} {i : Nat} {st : St}
    (h : litPhase cs res stack i = .state st) : i ≤ st.i := by
  unfold litPhase at h
  split at h
  · split at h
    · exact le_trans (Nat.le_add_right _ _) (opPhase_mono h)
    · exact le_trans (Nat.le_add_right _ _) (opPhase_mono h)
  · split at h
    · cases h
    · exact opPhase_mono h

theorem litPhase_strict {cs : List Char} {res : List Tok} {stack : List String} {i : Nat} {st : St}
    (hi : i < cs.length) (h : litPhase cs res stack i = .state st) : i < st.i := by
  unfold litPhase at h
  split at h
  · rename_i hd
    split at h
    · rename_i hdig
      have h1 : 1 ≤ (digitRun cs i).length := takeWhile_drop_pos hi hdig
      have h2 := opPhase_mono h
      omega
    · rename_i hdig
      have hal : (cs.getD i ' ').isAlpha = true := by
        rcases hd with ⟨-, hd | hd⟩
        · exact absurd hd hdig
        · exact hd
      have h1 : 1 ≤ (letterRun cs i).length := takeWhile_drop_pos hi hal
      have h2 := opPhase_mono h
      omega
  · split at h
    · cases h
    · rename_i hnotlit hnoterr
      have hop : pyInC (cs.getD i ' ') "+-*/^()" = true := by
        by_contra hcon
        exact hnoterr ⟨hi, hcon⟩
      exact opPhase_strict hi hop h

/-- Claim helper: an iteration of the scanning loop that yields a new
state strictly increases the scan index. -/
theorem step_increases {cs : List Char} {st st' : St}
    (hi : st.i < cs.length) (h : step cs st = .state st') : st.i < st'.i := by
  unfold step at h
  split at h
  · split at h
    · cases h
    · have := litPhase_mono h
      omega
  · exact litPhase_strict hi h

theorem drain_ne_fuelOut (res : List Tok) (stack : List String) :
    drain res stack ≠ .fuelOut := by
  induction stack generalizing res with
  | nil => simp [drain]
  | cons t st ih =>
    unfold drain
    split
    · simp
    · exact ih _

theorem scanLoop_ne_fuelOut {fuel : Nat} {cs : List Char} {st : St}
    (hf : cs.length - st.i < fuel) : scanLoop fuel cs st ≠ .fuelOut := by
  induction fuel generalizing st with
  | zero => omega
  | succ fuel ih =>
    unfold scanLoop
    split
    · rename_i hi
      cases hstep : step cs st with
      | error => simp
      | state st' =>
        have := step_increases hi hstep
        exact ih (by omega)
    · exact drain_ne_fuelOut _ _

/-- C10: The infix-to-postfix conversion terminates on every input
string: each iteration of the scan loop either returns an error or
strictly increases the scan index (first conjunct), so the fuel
supplied by `infix_to_rpn` can never be exhausted and the converter is
a total function of its input (second conjunct). -/
theorem infix_to_rpn_terminates :
    (∀ (cs : List Char) (st st' : St),
      st.i < cs.length → step cs st = .state st' → st.i < st'.i) ∧
    (∀ s : String, scanLoop (s.length + 1) s.data ⟨[], [], 0⟩ ≠ .fuelOut) := by
  constructor
  · intro cs st st' hi h
    exact step_increases hi h
  · intro s
    refine scanLoop_ne_fuelOut ?_
    have : s.data.length = s.length := rfl
    dsimp only
    omega

/-- Witness for C10 at the concrete input "2": the single loop
iteration moves the index from 0 to 1. -/
theorem infix_to_rpn_terminates_witness :
    (St.i ⟨[], [], 0⟩ < St.i ⟨[Tok.int 2], [], 1⟩) ∧
      scanLoop ("2".length + 1) "2".data ⟨[], [], 0⟩ ≠ .fuelOut := by
  constructor
  · exact infix_to_rpn_terminates.1 "2".data ⟨[], [], 0⟩ ⟨[Tok.int 2], [], 1⟩
      (by decide) (by decide)
  · exact infix_to_rpn_terminates.2 "2"

/-- C7 (part of the claim set): stack underflow, leftover values and the
empty-sequence no-op during postfix evaluation. -/
theorem evalRpn_stack_discipline :
    (∀ (env : Env) (rest : List Tok),
      evalRpn env (Tok.str "#" :: rest) [] = some (.str "Invalid expression")) ∧
    (∀ (env : Env) (rest : List Tok) (op : String) (stack : List PyVal),
      op ∈ ["+", "-", "*", "/", "^"] → stack.length < 2 →
      evalRpn env (Tok.str op :: rest) stack = some (.str "Invalid expression")) ∧
    (∀ (env : Env) (v w : PyVal) (stack : List PyVal),
      evalRpn env [] (v :: w :: stack) = some (.str "Invalid expression")) ∧
    (∀ env : Env, rpn_to_result [] env = some (.str "")) := by
  refine ⟨fun env rest => rfl, ?_, ?_, fun env => rfl⟩
  · intro env rest op stack hop hlen
    match stack, hlen with
    | [], _ => fin_cases hop <;> rfl
    | [v], _ => fin_cases hop <;> rfl
  · intro env v w stack
    unfold evalRpn
    rw [if_pos (by simp only [List.length_cons]; omega)]

theorem evalRpn_stack_discipline_witness :
    evalRpn (fun _ => none) [Tok.str "#"] [] = some (.str "Invalid expression") ∧
    evalRpn (fun _ => none) [Tok.str "+"] [PyVal.int 1] = some (.str "Invalid expression") ∧
    evalRpn (fun _ => none) [] [PyVal.int 1, PyVal.int 2] = some (.str "Invalid expression") ∧
    rpn_to_result [] (fun _ => none) = some (.str "") :=
  ⟨evalRpn_stack_discipline.1 (fun _ => none) [],
   evalRpn_stack_discipline.2.1 (fun _ => none) [] "+" [PyVal.int 1] (by decide) (by decide),
   evalRpn_stack_discipline.2.2.1 (fun _ => none) (PyVal.int 1) (PyVal.int 2) [],
   evalRpn_stack_discipline.2.2.2 (fun _ => none)⟩

theorem fdiv_neg_neg (a b : Int) : Int.fdiv (-a) (-b) = Int.fdiv a b := by
  cases a with
  | ofNat m =>
    cases m with
    | zero =>
      cases b with
      | ofNat n => cases n <;> rfl
      | negSucc n => rfl
    | succ m =>
      cases b with
      | ofNat n =>
        cases n with
        | zero =>
          show Int.fdiv (Int.negSucc m) (Int.ofNat 0) = Int.fdiv (Int.ofNat (m + 1)) (Int.ofNat 0)
          simp [Int.fdiv]
        | succ n => rfl
      | negSucc n => rfl
  | negSucc m =>
    cases b with
    | ofNat n =>
      cases n with
      | zero =>
        show Int.fdiv (Int.ofNat (m + 1)) (Int.ofNat 0) = Int.fdiv (Int.negSucc m) (Int.ofNat 0)
        simp [Int.fdiv]
      | succ n => rfl
    | negSucc n => rfl

theorem fdiv_bounds_pos (a b : Int) (hb : 0 < b) :
    b * Int.fdiv a b ≤ a ∧ a < b * Int.fdiv a b + b := by
  have h1 := Int.fdiv_add_fmod a b
  have h2 := Int.fmod_nonneg' a hb
  have h3 := Int.fmod_lt_of_pos a hb
  constructor <;> linarith

theorem fdiv_bounds_neg (a b : Int) (hb : b < 0) :
    b * Int.fdiv a b + b < a ∧ a ≤ b * Int.fdiv a b := by
  have hpos : 0 < -b := by omega
  have h := fdiv_bounds_pos (-a) (-b) hpos
  rw [fdiv_neg_neg] at h
  constructor <;> nlinarith [h.1, h.2]

/-- C5: applying `/` with integer operands pops the divisor first, fails
with "Invalid expression" on a zero divisor, and otherwise pushes the
floor quotient `Int.fdiv a b`; `Int.fdiv` rounds toward negative
infinity (the two sign-split conjuncts characterise it as the floor of
the exact quotient), as the concrete runs on "-7/2", "7 / -2" (without the spaces), "7/2" and
"5/0" illustrate end to end. -/
theorem div_is_floor_division :
    (∀ (env : Env) (rest : List Tok) (stack : List PyVal) (a b : Int), b ≠ 0 →
      evalRpn env (Tok.str "/" :: rest) (.int b :: .int a :: stack)
        = evalRpn env rest (.int (Int.fdiv a b) :: stack)) ∧
    (∀ (env : Env) (rest : List Tok) (stack : List PyVal) (a : Int),
      evalRpn env (Tok.str "/" :: rest) (.int 0 :: .int a :: stack)
        = some (.str "Invalid expression")) ∧
    (∀ a b : Int, 0 < b → b * Int.fdiv a b ≤ a ∧ a < b * Int.fdiv a b + b) ∧
    (∀ a b : Int, b < 0 → b * Int.fdiv a b + b < a ∧ a ≤ b * Int.fdiv a b) ∧
    (∀ env : Env, parse_expression "-7/2" env = some (.int (-4))) ∧
    (∀ env : Env, parse_expression "7/-2" env = some (.int (-4))) ∧
    (∀ env : Env, parse_expression "7/2" env = some (.int 3)) ∧
    (∀ env : Env, parse_expression "5/0" env = some (.str "Invalid expression")) := by
  refine ⟨?_, fun env rest stack a => rfl, fdiv_bounds_pos, fdiv_bounds_neg,
    fun env => rfl, fun env => rfl, fun env => rfl, fun env => rfl⟩
  intro env rest stack a b hb
  conv_lhs => unfold evalRpn
  simp [hb, pyFloorDiv, pyIn, contSub, startsWithList]

theorem div_is_floor_division_witness :
    (evalRpn (fun _ => none) [Tok.str "/"] [PyVal.int 2, PyVal.int 7]
      = evalRpn (fun _ => none) [] [PyVal.int (Int.fdiv 7 2)]) ∧
    (2 * Int.fdiv 7 2 ≤ 7 ∧ (7 : Int) < 2 * Int.fdiv 7 2 + 2) ∧
    ((-2) * Int.fdiv 7 (-2) + (-2) < 7 ∧ (7 : Int) ≤ (-2) * Int.fdiv 7 (-2)) :=
  ⟨div_is_floor_division.1 (fun _ => none) [] [] 7 2 (by decide),
   div_is_floor_division.2.2.1 7 2 (by decide),
   div_is_floor_division.2.2.2.1 7 (-2) (by decide)⟩

/-- C8: the `^` step takes the stack top as exponent and the value below
it as base; the input "2 caret 3 caret 2" converts to the postfix list
`[2, 3, 2, ^, ^]`, i.e. the right-associative grouping, and evaluates to
512. -/
theorem pow_groups_to_the_right :
    (∀ (env : Env) (rest : List Tok) (stack : List PyVal) (a b : Int), 0 ≤ b →
      evalRpn env (Tok.str "^" :: rest) (.int b :: .int a :: stack)
        = evalRpn env rest (.int (a ^ b.toNat) :: stack)) ∧
    infix_to_rpn "2^3^2"
      = some [Tok.int 2, Tok.int 3, Tok.int 2, Tok.str "^", Tok.str "^"] ∧
    (∀ env : Env, parse_expression "2^3^2" env = some (.int 512)) := by
  refine ⟨?_, rfl, fun env => rfl⟩
  intro env rest stack a b hb
  conv_lhs => unfold evalRpn
  simp [pyPow, hb, pyIn, contSub, startsWithList]

theorem pow_groups_to_the_right_witness :
    evalRpn (fun _ => none) [Tok.str "^"] [PyVal.int 2, PyVal.int 3]
      = evalRpn (fun _ => none) [] [PyVal.int ((3 : Int) ^ (2 : Int).toNat)] :=
  pow_groups_to_the_right.1 (fun _ => none) [] [] 3 2 (by decide)

theorem takeWhile_middle {p : Char → Bool} (xs ys : List Char)
    (hall : ∀ x ∈ xs, p x = true) (hstop : ∀ c t, ys = c :: t → p c = false) :
    (xs ++ ys).takeWhile p = xs := by
  induction xs with
  | nil =>
    cases ys with
    | nil => rfl
    | cons c t => simp [List.takeWhile_cons, hstop c t rfl]
  | cons x xs ih =>
    rw [List.cons_append, List.takeWhile_cons, if_pos (hall x (by simp))]
    rw [ih (fun y hy => hall y (by simp [hy]))]

theorem getD_at_boundary (l r : List Char) (c : Char) :
    (l ++ c :: r).getD l.length ' ' = c := by
  rw [List.getD_append_right _ _ _ _ (le_refl _)]
  simp

theorem opPhase_minus_parity :
    ∀ (pre rest : List Char) (res : List Tok) (stack : List String) (k : Nat),
      1 ≤ k → (∀ c t, rest = c :: t → ¬ c = '-') →
      opPhase (pre ++ List.replicate k '-' ++ rest) res stack pre.length
        = .state ⟨(popWhileIn "+-*/^#" res stack).1,
            (if k % 2 = 1 then "-" else "+") :: (popWhileIn "+-*/^#" res stack).2,
            pre.length + k⟩ := by
  intro pre rest res stack k hk hrest
  have hsplit : pre ++ List.replicate k '-' ++ rest = pre ++ ('-' :: (List.replicate (k - 1) '-' ++ rest)) := by
    rw [List.append_assoc]
    congr 1
    rw [← List.cons_append]
    congr 1
    cases k with
    | zero => omega
    | succ k => simp [List.replicate_succ]
  have hc : (pre ++ List.replicate k '-' ++ rest).getD pre.length ' ' = '-' := by
    rw [hsplit, getD_at_boundary]
  have hrun : minusRun (pre ++ List.replicate k '-' ++ rest) pre.length = k := by
    unfold minusRun
    rw [List.append_assoc, List.drop_left]
    rw [takeWhile_middle (List.replicate k '-') rest ?hall ?hstop]
    · simp
    case hall => intro x hx; simp [List.eq_of_mem_replicate hx]
    case hstop =>
      intro c t ht
      simp [hrest c t ht]
  have hlen : pre.length < (pre ++ List.replicate k '-' ++ rest).length := by
    simp
    omega
  unfold opPhase
  rw [if_pos ⟨hlen, by rw [hc]; decide⟩]
  rw [if_neg (by rw [hc]; decide), if_neg (by rw [hc]; decide), if_pos (by rw [hc])]
  rw [hrun]

/-- C9: a run of minus characters handled by the binary-minus branch of
the operator block pops by precedence, then pushes a single operator
chosen by the parity of the run length (`+` for even, `-` for odd) and
jumps past the whole run; 2---2 evaluates to 0, 2----2 to 4. -/
theorem minus_run_collapses_by_parity :
    (∀ (pre rest : List Char) (res : List Tok) (stack : List String) (k : Nat),
      1 ≤ k → (∀ c t, rest = c :: t → ¬ c = '-') →
      opPhase (pre ++ List.replicate k '-' ++ rest) res stack pre.length
        = .state ⟨(popWhileIn "+-*/^#" res stack).1,
            (if k % 2 = 1 then "-" else "+") :: (popWhileIn "+-*/^#" res stack).2,
            pre.length + k⟩) ∧
    (∀ env : Env, parse_expression "2---2" env = some (.int 0)) ∧
    (∀ env : Env, parse_expression "2----2" env = some (.int 4)) :=
  ⟨opPhase_minus_parity, fun _ => rfl, fun _ => rfl⟩

theorem minus_run_collapses_by_parity_witness :
    opPhase ("2".data ++ List.replicate 3 '-' ++ "2".data) [Tok.int 2] [] "2".data.length
      = .state ⟨(popWhileIn "+-*/^#" [Tok.int 2] []).1,
          (if 3 % 2 = 1 then "-" else "+") :: (popWhileIn "+-*/^#" [Tok.int 2] []).2,
          "2".data.length + 3⟩ :=
  minus_run_collapses_by_parity.1 "2".data "2".data [Tok.int 2] [] 3 (by decide)
    (by
      intro c t ht
      rw [show "2".data = ['2'] from rfl] at ht
      injection ht with h1 h2
      subst h1
      decide)

theorem popWhileHatHash_no_pop (res : List Tok) (stack : List String)
    (h : ∀ p ∈ stack, p ≠ "^#") : popWhileHatHash res stack = (res, stack) := by
  cases stack with
  | nil => rfl
  | cons t st =>
    unfold popWhileHatHash
    rw [if_neg (h t (by simp))]

/-- C2 counterexample: with the synthetic unary-negation operator `#` on
top of the operator stack and a `^` being read (input "-2^2", position
2), the converter emits nothing and pushes `^` above `#` — the exact
opposite of the claimed pop-before-push — so "-2^2" becomes the postfix
list `[2, 2, ^, #]` and evaluates to -4 rather than 4. -/
theorem caret_read_pops_nothing_counterexample :
    opPhase "-2^2".data [Tok.int 2] ["#"] 2 = .state ⟨[Tok.int 2], ["^", "#"], 3⟩ ∧
    ¬ opPhase "-2^2".data [Tok.int 2] ["#"] 2 = .state ⟨[Tok.int 2, Tok.str "#"], ["^"], 3⟩ ∧
    infix_to_rpn "-2^2" = some [Tok.int 2, Tok.int 2, Tok.str "^", Tok.str "#"] ∧
    parse_expression "-2^2" (fun _ => none) = some (.int (-4)) := by
  refine ⟨rfl, by decide, rfl, rfl⟩

theorem opPhase_caret_nopop :
    ∀ (cs : List Char) (res : List Tok) (stack : List String) (i : Nat),
      i < cs.length → cs.getD i ' ' = '^' →
      ¬ (i < cs.length - 1 ∧ cs.getD (i + 1) ' ' = '^') →
      (∀ p ∈ stack, p ≠ "^#") →
      opPhase cs res stack i = .state ⟨res, "^" :: stack, i + 1⟩ := by
  intro cs res stack i hi hc hnd hstack
  unfold opPhase
  rw [hc, if_pos ⟨hi, by decide⟩, popWhileHatHash_no_pop res stack hstack]
  simp
  intro h1 h2
  rw [← List.getD_eq_getElem?_getD] at h2
  exact hnd ⟨h1, h2⟩

/-- C2 amended: when a `^` is read (and not immediately doubled), the
pop loop guarding it compares the stack top with the two-character
string "^#", which never equals any pushed stack symbol, so nothing is
popped and `^` is pushed directly — in particular a `#` on top of the
stack is not emitted. -/
theorem caret_read_pops_nothing :
    ∀ (cs : List Char) (res : List Tok) (stack : List String) (i : Nat),
      i < cs.length → cs.getD i ' ' = '^' →
      ¬ (i < cs.length - 1 ∧ cs.getD (i + 1) ' ' = '^') →
      (∀ p ∈ stack, p ≠ "^#") →
      opPhase cs res stack i = .state ⟨res, "^" :: stack, i + 1⟩ :=
  opPhase_caret_nopop

theorem caret_read_pops_nothing_witness :
    opPhase "-2^2".data [Tok.int 2] ["#"] 2
      = .state ⟨[Tok.int 2], ["^", "#"], 3⟩ :=
  caret_read_pops_nothing "-2^2".data [Tok.int 2] ["#"] 2 (by decide) (by decide)
    (by decide) (by decide)

/-- C4 counterexample: on the input "--5" the unary block sees a sign
character followed by another sign character (not a digit, letter or
opening parenthesis) and returns an error, so the program prints
"Invalid expression"; it does not evaluate "--5" to 5. -/
theorem double_minus_rejected_counterexample :
    parse_expression "--5" (fun _ => none) = some (.str "Invalid expression") ∧
    ¬ parse_expression "--5" (fun _ => none) = some (.int 5) := by
  exact ⟨rfl, by decide⟩

/-- C4 amended: "-5+3" evaluates to -2, but "--5" is rejected with
"Invalid expression", because a unary sign must be immediately followed
by a digit, a letter or an opening parenthesis. -/
theorem leading_unary_signs :
    ∀ env : Env,
      parse_expression "-5+3" env = some (.int (-2)) ∧
      parse_expression "--5" env = some (.str "Invalid expression") :=
  fun _ => ⟨rfl, rfl⟩

/-- C3: the input line "a=()" is accepted by the assignment handler with
no message printed, yet it binds the non-integer empty-string result to
"a" (an empty right-hand side postfix sequence evaluates to the Python
string ""), and a later arithmetic use of "a" crashes with an uncaught
TypeError (modelled as `none`). -/
theorem assignment_stores_non_integer :
    (∃ e : Env, parse_assignment "a=()" (fun _ => none) = some (none, e) ∧
      e "a" = some (PyVal.str "")) ∧
    parse_expression "a+1" (fun s => if s = "a" then some (PyVal.str "") else none)
      = none := by
  refine ⟨⟨_, rfl, rfl⟩, rfl⟩

theorem splitFirstEq_append (l r : List Char) (hl : '=' ∉ l) :
    splitFirstEq (l ++ '=' :: r) = (l, r) := by
  induction l with
  | nil => simp [splitFirstEq]
  | cons c t ih =>
    have hc : ¬ c = '=' := by
      intro h
      exact hl (by simp [h])
    rw [List.cons_append]
    unfold splitFirstEq
    rw [if_neg hc, ih (fun h => hl (by simp [h]))]

theorem pyIsAlpha_ne_empty {s : String} (h : pyIsAlpha s = true) : ¬ s = "" := by
  intro he
  subst he
  simp [pyIsAlpha] at h

theorem pyIsAlpha_no_eq {s : String} (h : pyIsAlpha s = true) : '=' ∉ s.data := by
  intro hmem
  unfold pyIsAlpha at h
  simp only [Bool.and_eq_true, List.all_eq_true] at h
  have := h.2 '=' hmem
  simp at this

/-- C6: an assignment line with a valid (all-letters) left-hand side and
a right-hand side that is not an absent all-letters variable name: if
the expression pipeline on the right-hand side fails with either
"Invalid expression" or "Unknown variable", the handler masks it as
"Invalid assignment" and leaves the environment unchanged; whereas an
all-letters right-hand side absent from the environment is reported as
"Unknown variable" (also leaving the environment unchanged). -/
theorem assignment_masks_pipeline_errors :
    (∀ (lhs rhs : String) (env : Env),
      pyIsAlpha lhs = true → ¬ rhs = "" →
      ¬ (pyIsAlpha rhs = true ∧ env rhs = none) →
      (parse_expression rhs env = some (.str "Invalid expression") ∨
        parse_expression rhs env = some (.str "Unknown variable")) →
      parse_assignment (lhs ++ "=" ++ rhs) env = some (some "Invalid assignment", env)) ∧
    (∀ (lhs rhs : String) (env : Env),
      pyIsAlpha lhs = true → pyIsAlpha rhs = true → env rhs = none →
      parse_assignment (lhs ++ "=" ++ rhs) env = some (some "Unknown variable", env)) := by
  have hdata : ∀ lhs rhs : String, (lhs ++ "=" ++ rhs).data = lhs.data ++ '=' :: rhs.data := by
    intro lhs rhs
    simp [String.data_append]
  constructor
  · intro lhs rhs env hl hr hnv hfail
    unfold parse_assignment
    rw [hdata, splitFirstEq_append _ _ (pyIsAlpha_no_eq hl)]
    rw [if_neg (by simpa using pyIsAlpha_ne_empty hl)]
    rw [if_neg (by simpa using hl)]
    rw [if_neg (by simpa using hr)]
    rw [if_neg (by simpa using hnv)]
    rcases hfail with hfail | hfail <;>
      rw [show String.mk rhs.data = rhs from rfl, hfail] <;> simp
  · intro lhs rhs env hl hr hnone
    unfold parse_assignment
    rw [hdata, splitFirstEq_append _ _ (pyIsAlpha_no_eq hl)]
    rw [if_neg (by simpa using pyIsAlpha_ne_empty hl)]
    rw [if_neg (by simpa using hl)]
    rw [if_neg (by simpa using pyIsAlpha_ne_empty hr)]
    rw [if_pos (by exact ⟨by simpa using hr, by simpa using hnone⟩)]

theorem assignment_masks_pipeline_errors_witness :
    parse_assignment ("a" ++ "=" ++ "2++") (fun _ => none)
      = some (some "Invalid assignment", fun _ => none) ∧
    parse_assignment ("a" ++ "=" ++ "b") (fun _ => none)
      = some (some "Unknown variable", fun _ => none) :=
  ⟨assignment_masks_pipeline_errors.1 "a" "2++" (fun _ => none) (by decide) (by decide)
      (by decide) (Or.inl rfl),
   assignment_masks_pipeline_errors.2 "a" "b" (fun _ => none) (by decide) (by decide) rfl⟩

/-! ### Reference semantics for claim C1

`Expr`, `evalE` and `Renders` formalise the claim's "well-formed infix
expression" and "standard left-to-right, precedence-respecting
arithmetic": `Renders e l s` says the character string `s` is a reading
of the expression tree `e` in a context of precedence level `l`
(0 = additive, 1 = multiplicative, 2 = power, 3 = atom), under the
standard grammar — `+ -` group to the left and bind loosest, `* /`
group to the left and bind tighter, `^` binds tightest among the binary
operators and groups to the right, parentheses may wrap any
subexpression, and integer literals are non-empty digit runs.  Division
is the floor division and powers require a non-negative exponent, per
the specification's own reading of standard arithmetic on integers. -/
inductive Expr where
  | num (n : Nat)
  | add (a b : Expr)
  | sub (a b : Expr)
  | mul (a b : Expr)
  | div (a b : Expr)
  | pow (a b : Expr)
  deriving DecidableEq, Repr

/-- The value of an expression under standard integer arithmetic:
`none` on division by zero or a negative exponent. -/
def evalE : Expr → Option Int
  | .num n => some (n : Int)
  | .add a b =>
    match evalE a, evalE b with
    | some x, some y => some (x + y)
    | _, _ => none
  | .sub a b =>
    match evalE a, evalE b with
    | some x, some y => some (x - y)
    | _, _ => none
  | .mul a b =>
    match evalE a, evalE b with
    | some x, some y => some (x * y)
    | _, _ => none
  | .div a b =>
    match evalE a, evalE b with
    | some x, some y => if y = 0 then none else some (Int.fdiv x y)
    | _, _ => none
  | .pow a b =>
    match evalE a, evalE b with
    | some x, some y => if 0 ≤ y then some (x ^ y.toNat) else none
    | _, _ => none

/-- The postfix (RPN) reading of an expression tree. -/
def rpnOf : Expr → List Tok
  | .num n => [Tok.int (n : Int)]
  | .add a b => rpnOf a ++ rpnOf b ++ [Tok.str "+"]
  | .sub a b => rpnOf a ++ rpnOf b ++ [Tok.str "-"]
  | .mul a b => rpnOf a ++ rpnOf b ++ [Tok.str "*"]
  | .div a b => rpnOf a ++ rpnOf b ++ [Tok.str "/"]
  | .pow a b => rpnOf a ++ rpnOf b ++ [Tok.str "^"]

/-- The standard precedence grammar relating strings to expression
trees (see the module comment on `Expr`). -/
inductive Renders : Expr → Nat → List Char → Prop where
  | num (l : Nat) (ds : List Char) (h1 : ds ≠ []) (h2 : ∀ c ∈ ds, c.isDigit = true) :
      Renders (.num (pyDigitsVal ds)) l ds
  | add {a b : Expr} {sa sb : List Char} (ha : Renders a 0 sa) (hb : Renders b 1 sb) :
      Renders (.add a b) 0 (sa ++ '+' :: sb)
  | sub {a b : Expr} {sa sb : List Char} (ha : Renders a 0 sa) (hb : Renders b 1 sb) :
      Renders (.sub a b) 0 (sa ++ '-' :: sb)
  | mul {l : Nat} {a b : Expr} {sa sb : List Char} (hl : l ≤ 1)
      (ha : Renders a 1 sa) (hb : Renders b 2 sb) :
      Renders (.mul a b) l (sa ++ '*' :: sb)
  | div {l : Nat} {a b : Expr} {sa sb : List Char} (hl : l ≤ 1)
      (ha : Renders a 1 sa) (hb : Renders b 2 sb) :
      Renders (.div a b) l (sa ++ '/' :: sb)
  | pow {l : Nat} {a b : Expr} {sa sb : List Char} (hl : l ≤ 2)
      (ha : Renders a 3 sa) (hb : Renders b 2 sb) :
      Renders (.pow a b) l (sa ++ '^' :: sb)
  | paren {l : Nat} {e : Expr} {s : List Char} (h : Renders e 0 s) :
      Renders e l ('(' :: s ++ [')'])

/-- Pop classes of the operator-stack symbols: `+ -` pop everything of
class at least 0, `* /` everything of class at least 1; `^` would be
class 2 and `#` class 3. -/
def opClass : String → Nat
  | "+" => 0
  | "-" => 0
  | "*" => 1
  | "/" => 1
  | "^" => 2
  | "#" => 3
  | _ => 4

def binOps : List String := ["+", "-", "*", "/", "^"]

def stackSyms : List String := ["(", "#", "+", "-", "*", "/", "^"]

/-- The stack top cannot be popped by the operators appearing at the
top level of a rendering in context `l` (levels at least 2 pop
nothing). -/
def safeTop (l : Nat) (S : List String) : Prop :=
  2 ≤ l ∨ S = [] ∨ ∃ c S2, S = c :: S2 ∧ (c = "(" ∨ opClass c < l)

def goodStack (S : List String) : Prop := ∀ p ∈ S, p ∈ stackSyms

/-- What may legally follow a rendering: nothing, or a binary operator,
or a closing parenthesis. -/
def followOK (rest : List Char) : Prop :=
  rest = [] ∨ ∃ c t, rest = c :: t ∧ c ∈ [')', '+', '-', '*', '/', '^']

theorem renders_head {e : Expr} {l : Nat} {s : List Char} (h : Renders e l s) :
    ∃ c t, s = c :: t ∧ (c.isDigit = true ∨ c = '(') := by
  induction h with
  | num l ds h1 h2 =>
    cases ds with
    | nil => exact absurd rfl h1
    | cons c t => exact ⟨c, t, rfl, Or.inl (h2 c (by simp))⟩
  | @add a b sa sb ha hb iha ihb =>
    obtain ⟨c, t, hct, hc⟩ := iha
    exact ⟨c, t ++ '+' :: sb, by simp [hct], hc⟩
  | @sub a b sa sb ha hb iha ihb =>
    obtain ⟨c, t, hct, hc⟩ := iha
    exact ⟨c, t ++ '-' :: sb, by simp [hct], hc⟩
  | @mul l a b sa sb hl ha hb iha ihb =>
    obtain ⟨c, t, hct, hc⟩ := iha
    exact ⟨c, t ++ '*' :: sb, by simp [hct], hc⟩
  | @div l a b sa sb hl ha hb iha ihb =>
    obtain ⟨c, t, hct, hc⟩ := iha
    exact ⟨c, t ++ '/' :: sb, by simp [hct], hc⟩
  | @pow l a b sa sb hl ha hb iha ihb =>
    obtain ⟨c, t, hct, hc⟩ := iha
    exact ⟨c, t ++ '^' :: sb, by simp [hct], hc⟩
  | @paren l e2 s2 h ih => exact ⟨'(', s2 ++ [')'], rfl, Or.inr rfl⟩

theorem renders_last {e : Expr} {l : Nat} {s : List Char} (h : Renders e l s) :
    ∃ t c, s = t ++ [c] ∧ (c.isDigit = true ∨ c = ')') := by
  induction h with
  | num l ds h1 h2 =>
    rcases List.eq_nil_or_concat' ds with h | ⟨t, c, htc⟩
    · exact absurd h h1
    · exact ⟨t, c, htc, Or.inl (h2 c (by simp [htc]))⟩
  | @add a b sa sb ha hb iha ihb =>
    obtain ⟨t, c, htc, hc⟩ := ihb
    exact ⟨sa ++ '+' :: t, c, by simp [htc], hc⟩
  | @sub a b sa sb ha hb iha ihb =>
    obtain ⟨t, c, htc, hc⟩ := ihb
    exact ⟨sa ++ '-' :: t, c, by simp [htc], hc⟩
  | @mul l a b sa sb hl ha hb iha ihb =>
    obtain ⟨t, c, htc, hc⟩ := ihb
    exact ⟨sa ++ '*' :: t, c, by simp [htc], hc⟩
  | @div l a b sa sb hl ha hb iha ihb =>
    obtain ⟨t, c, htc, hc⟩ := ihb
    exact ⟨sa ++ '/' :: t, c, by simp [htc], hc⟩
  | @pow l a b sa sb hl ha hb iha ihb =>
    obtain ⟨t, c, htc, hc⟩ := ihb
    exact ⟨sa ++ '^' :: t, c, by simp [htc], hc⟩
  | @paren l e2 s2 h ih => exact ⟨'(' :: s2, ')', rfl, Or.inr rfl⟩

theorem renders_ne_nil {e : Expr} {l : Nat} {s : List Char} (h : Renders e l s) : s ≠ [] := by
  obtain ⟨c, t, hct, -⟩ := renders_head h
  simp [hct]

theorem pyInC_iff_mem (c : Char) (pat : String) : pyInC c pat = true ↔ c ∈ pat.data := by
  unfold pyInC
  induction pat.data with
  | nil => simp [contSub, startsWithList]
  | cons y ys ih =>
    unfold contSub
    simp only [startsWithList, Bool.or_eq_true, Bool.and_eq_true, beq_iff_eq, List.mem_cons]
    rw [ih]
    constructor
    · rintro (⟨h, -⟩ | h)
      · exact Or.inl h
      · exact Or.inr h
    · rintro (h | h)
      · exact Or.inl ⟨h, trivial⟩
      · exact Or.inr h

theorem popWhileIn_split (pat : String) (P : List String) :
    ∀ (S : List String) (res : List Tok),
      (∀ p ∈ P, pyIn p pat = true) →
      (∀ c S2, S = c :: S2 → pyIn c pat = false) →
      popWhileIn pat res (P ++ S) = (res ++ P.map Tok.str, S) := by
  induction P with
  | nil =>
    intro S res hP hS
    cases S with
    | nil => simp [popWhileIn]
    | cons c S2 =>
      rw [List.nil_append]
      unfold popWhileIn
      rw [if_neg (by simp [hS c S2 rfl])]
      simp
  | cons p P ih =>
    intro S res hP hS
    rw [List.cons_append]
    unfold popWhileIn
    rw [if_pos (hP p (by simp))]
    rw [ih S (res ++ [Tok.str p]) (fun q hq => hP q (by simp [hq])) hS]
    simp

theorem popToLParen_split (P : List String) :
    ∀ (S : List String) (res : List Tok),
      (∀ p ∈ P, ¬ p = "(") →
      popToLParen res (P ++ "(" :: S) = some (res ++ P.map Tok.str, S) := by
  induction P with
  | nil =>
    intro S res hP
    rw [List.nil_append]
    unfold popToLParen
    rw [if_pos rfl]
    simp
  | cons p P ih =>
    intro S res hP
    rw [List.cons_append]
    unfold popToLParen
    rw [if_neg (hP p (by simp))]
    rw [ih S (res ++ [Tok.str p]) (fun q hq => hP q (by simp [hq]))]
    simp

theorem drain_split (P : List String) :
    ∀ res : List Tok, (∀ p ∈ P, ¬ p = "(") →
      drain res P = .ok (res ++ P.map Tok.str) := by
  induction P with
  | nil => intro res hP; simp [drain]
  | cons p P ih =>
    intro res hP
    unfold drain
    rw [if_neg (hP p (by simp))]
    rw [ih (res ++ [Tok.str p]) (fun q hq => hP q (by simp [hq]))]
    simp

theorem takeWhile_single {p : Char → Bool} (c : Char) (rest2 : List Char)
    (hc : p c = true) (hrest : ∀ d t, rest2 = d :: t → p d = false) :
    (c :: rest2).takeWhile p = [c] := by
  rw [List.takeWhile_cons, if_pos hc]
  cases rest2 with
  | nil => rfl
  | cons d t => simp [List.takeWhile_cons, hrest d t rfl]

theorem getD_at_boundary1 (l : List Char) (c d : Char) (r : List Char) :
    (l ++ c :: d :: r).getD (l.length + 1) ' ' = d := by
  rw [List.getD_append_right _ _ _ _ (by omega)]
  simp

theorem opPhase_at_plus (pre2 rest2 : List Char) (res : List Tok) (S : List String)
    (hnext : ∀ d t, rest2 = d :: t → ¬ d = '+') :
    opPhase (pre2 ++ '+' :: rest2) res S pre2.length
      = .state ⟨(popWhileIn "+-*/^#" res S).1, "+" :: (popWhileIn "+-*/^#" res S).2,
          pre2.length + 1⟩ := by
  have hlen : pre2.length < (pre2 ++ '+' :: rest2).length := by simp
  have hc : (pre2 ++ '+' :: rest2).getD pre2.length ' ' = '+' := getD_at_boundary _ _ _
  have hrun : plusRun (pre2 ++ '+' :: rest2) pre2.length = 1 := by
    unfold plusRun
    rw [List.drop_left, takeWhile_single '+' rest2 (by decide)
      (fun d t ht => by simp [hnext d t ht])]
    rfl
  unfold opPhase
  rw [hc, if_pos ⟨hlen, by decide⟩, if_neg (by decide), if_pos rfl, hrun]

theorem opPhase_at_minus (pre2 rest2 : List Char) (res : List Tok) (S : List String)
    (hnext : ∀ d t, rest2 = d :: t → ¬ d = '-') :
    opPhase (pre2 ++ '-' :: rest2) res S pre2.length
      = .state ⟨(popWhileIn "+-*/^#" res S).1, "-" :: (popWhileIn "+-*/^#" res S).2,
          pre2.length + 1⟩ := by
  have h := opPhase_minus_parity pre2 rest2 res S 1 (by omega) hnext
  simpa using h

theorem opPhase_at_mulDiv (c : Char) (pre2 rest2 : List Char) (res : List Tok)
    (S : List String) (hc : c = '*' ∨ c = '/')
    (hnext : ∀ d t, rest2 = d :: t → ¬ d = c) :
    opPhase (pre2 ++ c :: rest2) res S pre2.length
      = .state ⟨(popWhileIn "*/^#" res S).1,
          String.singleton c :: (popWhileIn "*/^#" res S).2, pre2.length + 1⟩ := by
  have hlen : pre2.length < (pre2 ++ c :: rest2).length := by simp
  have hgd : (pre2 ++ c :: rest2).getD pre2.length ' ' = c := getD_at_boundary _ _ _
  have hnd : ¬ (pre2.length < (pre2 ++ c :: rest2).length - 1 ∧
      (pre2 ++ c :: rest2).getD (pre2.length + 1) ' ' = c) := by
    cases rest2 with
    | nil =>
      rintro ⟨h1, -⟩
      simp at h1
    | cons d t =>
      rintro ⟨-, h2⟩
      rw [getD_at_boundary1] at h2
      exact hnext d t rfl h2
  rcases hc with hc | hc <;> subst hc
  · unfold opPhase
    rw [hgd, if_pos ⟨hlen, by decide⟩, if_neg (by decide), if_neg (by decide),
      if_neg (by decide), if_pos (Or.inl rfl), if_neg hnd]
  · unfold opPhase
    rw [hgd, if_pos ⟨hlen, by decide⟩, if_neg (by decide), if_neg (by decide),
      if_neg (by decide), if_pos (Or.inr rfl), if_neg hnd]

theorem opPhase_at_caret (pre2 rest2 : List Char) (res : List Tok) (S : List String)
    (hnext : ∀ d t, rest2 = d :: t → ¬ d = '^')
    (hS : ∀ p ∈ S, ¬ p = "^#") :
    opPhase (pre2 ++ '^' :: rest2) res S pre2.length
      = .state ⟨res, "^" :: S, pre2.length + 1⟩ := by
  refine opPhase_caret_nopop _ _ _ _ (by simp) (getD_at_boundary _ _ _) ?_ hS
  rintro ⟨h1, h2⟩
  cases rest2 with
  | nil => simp at h1
  | cons d t =>
    rw [getD_at_boundary1] at h2
    exact hnext d t rfl h2

theorem opPhase_at_lparen (pre2 rest2 : List Char) (res : List Tok) (S : List String) :
    opPhase (pre2 ++ '(' :: rest2) res S pre2.length
      = .state ⟨res, "(" :: S, pre2.length + 1⟩ := by
  have hlen : pre2.length < (pre2 ++ '(' :: rest2).length := by simp
  have hgd : (pre2 ++ '(' :: rest2).getD pre2.length ' ' = '(' := getD_at_boundary _ _ _
  unfold opPhase
  rw [hgd, if_pos ⟨hlen, by decide⟩, if_pos rfl]

theorem opPhase_at_rparen (pre2 rest2 : List Char) (res : List Tok) (P S : List String)
    (hP : ∀ p ∈ P, ¬ p = "(") :
    opPhase (pre2 ++ ')' :: rest2) res (P ++ "(" :: S) pre2.length
      = .state ⟨res ++ P.map Tok.str, S, pre2.length + 1⟩ := by
  have hlen : pre2.length < (pre2 ++ ')' :: rest2).length := by simp
  have hgd : (pre2 ++ ')' :: rest2).getD pre2.length ' ' = ')' := getD_at_boundary _ _ _
  unfold opPhase
  rw [hgd, if_pos ⟨hlen, by decide⟩, if_neg (by decide), if_neg (by decide),
    if_neg (by decide), if_neg (by decide), if_neg (by decide)]
  rw [popToLParen_split P S res hP]

theorem digit_not_sign {c : Char} (h : c.isDigit = true) : pyInC c "+-" = false := by
  cases hm : pyInC c "+-" with
  | false => rfl
  | true =>
    have := (pyInC_iff_mem c "+-").1 hm
    simp only [show ("+-" : String).data = ['+', '-'] from rfl, List.mem_cons,
      List.not_mem_nil, or_false] at this
    rcases this with rfl | rfl <;> simp at h

theorem scanLoop_at_digits (pre2 rest2 ds : List Char) (res : List Tok) (S : List String)
    (fuel : Nat) (hds : ds ≠ []) (hdig : ∀ c ∈ ds, c.isDigit = true)
    (hrest : ∀ c t, rest2 = c :: t → c.isDigit = false) :
    scanLoop (fuel + 1) (pre2 ++ ds ++ rest2) ⟨res, S, pre2.length⟩
      = scanFrom fuel (pre2 ++ ds ++ rest2) (res ++ [Tok.int (pyDigitsVal ds)]) S
          (pre2.length + ds.length) := by
  obtain ⟨c0, ds', rfl⟩ : ∃ c0 ds', ds = c0 :: ds' := by
    cases ds with
    | nil => exact absurd rfl hds
    | cons c0 ds' => exact ⟨c0, ds', rfl⟩
  have hc0 : c0.isDigit = true := hdig c0 (by simp)
  have hi : pre2.length < (pre2 ++ (c0 :: ds') ++ rest2).length := by simp
  have hgd : (pre2 ++ (c0 :: ds') ++ rest2).getD pre2.length ' ' = c0 := by
    rw [List.append_assoc, List.cons_append]
    exact getD_at_boundary _ _ _
  have hdrop : (pre2 ++ (c0 :: ds') ++ rest2).drop pre2.length = (c0 :: ds') ++ rest2 := by
    rw [List.append_assoc, List.drop_left]
  have hdr : digitRun (pre2 ++ (c0 :: ds') ++ rest2) pre2.length = c0 :: ds' := by
    unfold digitRun
    rw [hdrop]
    exact takeWhile_middle _ _ hdig (fun c t ht => by simp [hrest c t ht])
  have hstep : step (pre2 ++ (c0 :: ds') ++ rest2) ⟨res, S, pre2.length⟩
      = opPhase (pre2 ++ (c0 :: ds') ++ rest2) (res ++ [Tok.int (pyDigitsVal (c0 :: ds'))]) S
          (pre2.length + (c0 :: ds').length) := by
    unfold step
    rw [if_neg]
    · unfold litPhase
      rw [if_pos ⟨hi, by rw [hgd]; exact Or.inl hc0⟩]
      rw [if_pos (by rw [hgd]; exact hc0), hdr]
    · dsimp only
      rw [hgd]
      rintro ⟨h1, -⟩
      rw [digit_not_sign hc0] at h1
      cases h1
  unfold scanLoop
  rw [if_pos hi, hstep]
  unfold scanFrom
  rfl

theorem scanLoop_at_lparen (pre2 rest2 : List Char) (res : List Tok) (S : List String)
    (fuel : Nat) :
    scanLoop (fuel + 1) (pre2 ++ '(' :: rest2) ⟨res, S, pre2.length⟩
      = scanLoop fuel (pre2 ++ '(' :: rest2) ⟨res, "(" :: S, pre2.length + 1⟩ := by
  have hi : pre2.length < (pre2 ++ '(' :: rest2).length := by simp
  have hgd : (pre2 ++ '(' :: rest2).getD pre2.length ' ' = '(' := getD_at_boundary _ _ _
  have hstep : step (pre2 ++ '(' :: rest2) ⟨res, S, pre2.length⟩
      = .state ⟨res, "(" :: S, pre2.length + 1⟩ := by
    unfold step
    rw [if_neg]
    · unfold litPhase
      rw [if_neg (by rw [hgd]; dsimp only; rintro ⟨-, h | h⟩ <;> simp at h)]
      rw [if_neg (by dsimp only; rw [hgd]; rintro ⟨-, h⟩; exact h (by decide))]
      exact opPhase_at_lparen pre2 rest2 res S
    · dsimp only
      rw [hgd]
      rintro ⟨h1, -⟩
      cases h1
  conv_lhs => unfold scanLoop
  rw [if_pos hi, hstep]

/-- Bridging a token boundary: when the scanner stands at the start of
what follows a just-scanned literal or closing parenthesis (so the
previous character cannot trigger the unary block), running one loop
iteration is the same as entering the operator block directly. -/
theorem scanLoop_bridge (cs : List Char) (res : List Tok) (S : List String) (b fuel : Nat)
    (hb : 0 < b)
    (hprev : pyInC (cs.getD (b - 1) ' ') "^*/+-(" = false)
    (hfollow : cs.length ≤ b ∨
      (b < cs.length ∧ (cs.getD b ' ') ∈ [')', '+', '-', '*', '/', '^'])) :
    scanLoop (fuel + 1) cs ⟨res, S, b⟩ = scanFrom fuel cs res S b := by
  rcases hfollow with hend | ⟨hlt, hmem⟩
  · have hnl : ¬ b < cs.length := by omega
    conv_lhs => unfold scanLoop
    rw [if_neg hnl]
    unfold scanFrom
    unfold opPhase
    rw [if_neg (by rintro ⟨h1, -⟩; exact hnl h1)]
    unfold scanLoop
    rw [if_neg hnl]
  · simp only [List.mem_cons, List.not_mem_nil, or_false] at hmem
    have hdig : (cs.getD b ' ').isDigit = false := by
      rcases hmem with h | h | h | h | h | h <;> rw [h] <;> rfl
    have hal : (cs.getD b ' ').isAlpha = false := by
      rcases hmem with h | h | h | h | h | h <;> rw [h] <;> rfl
    have hops : pyInC (cs.getD b ' ') "+-*/^()" = true := by
      rcases hmem with h | h | h | h | h | h <;> rw [h] <;> rfl
    have hlit1 : ¬ (b < cs.length ∧
        ((cs.getD b ' ').isDigit = true ∨ (cs.getD b ' ').isAlpha = true)) := by
      rintro ⟨-, h | h⟩
      · rw [hdig] at h; cases h
      · rw [hal] at h; cases h
    have hlit2 : ¬ (b < cs.length ∧ ¬ pyInC (cs.getD b ' ') "+-*/^()" = true) := by
      rintro ⟨-, h⟩
      exact h hops
    have hstep : step cs ⟨res, S, b⟩ = opPhase cs res S b := by
      unfold step
      rw [if_neg]
      · unfold litPhase
        rw [if_neg hlit1, if_neg hlit2]
      · dsimp only
        rintro ⟨-, h0 | hpr⟩
        · omega
        · rw [hprev] at hpr
          cases hpr
    conv_lhs => unfold scanLoop
    rw [if_pos hlt, hstep]
    unfold scanFrom
    cases hop : opPhase cs res S b <;> rfl

theorem scanFrom_state {fuel : Nat} {cs : List Char} {R : List Tok} {S : List String}
    {j : Nat} {st : St} (h : opPhase cs R S j = .state st) :
    scanFrom fuel cs R S j = scanLoop fuel cs st := by
  unfold scanFrom
  rw [h]

theorem binOps_popAll {p : String} (hp : p ∈ binOps) : pyIn p "+-*/^#" = true := by
  simp only [binOps, List.mem_cons, List.not_mem_nil, or_false] at hp
  rcases hp with rfl | rfl | rfl | rfl | rfl <;> rfl

theorem binOps_popMul {p : String} (hp : p ∈ binOps) (hc : 1 ≤ opClass p) :
    pyIn p "*/^#" = true := by
  simp only [binOps, List.mem_cons, List.not_mem_nil, or_false] at hp
  rcases hp with rfl | rfl | rfl | rfl | rfl
  · exact absurd hc (by decide)
  · exact absurd hc (by decide)
  · rfl
  · rfl
  · rfl

theorem stop_plus {S : List String} (hsafe : safeTop 0 S) :
    ∀ c S2, S = c :: S2 → pyIn c "+-*/^#" = false := by
  intro c S2 hS
  rcases hsafe with h | h | ⟨d, S3, hd, hcase⟩
  · omega
  · rw [hS] at h; cases h
  · rw [hS] at hd
    injection hd with h1 h2
    subst h1
    rcases hcase with rfl | hcl
    · rfl
    · omega

theorem stop_mul {S : List String} (hsafe : safeTop 1 S) (hgood : goodStack S) :
    ∀ c S2, S = c :: S2 → pyIn c "*/^#" = false := by
  intro c S2 hS
  rcases hsafe with h | h | ⟨d, S3, hd, hcase⟩
  · omega
  · rw [hS] at h; cases h
  · rw [hS] at hd
    injection hd with h1 h2
    subst h1
    rcases hcase with rfl | hcl
    · rfl
    · have hmem : c ∈ stackSyms := hgood c (by rw [hS]; simp)
      simp only [stackSyms, List.mem_cons, List.not_mem_nil, or_false] at hmem
      rcases hmem with rfl | rfl | rfl | rfl | rfl | rfl | rfl <;>
        first | rfl | (exfalso; revert hcl; decide)

theorem goodStack_no_hathash {S : List String} (hgood : goodStack S) :
    ∀ p ∈ S, ¬ p = "^#" := by
  intro p hp
  have hmem : p ∈ stackSyms := hgood p hp
  simp only [stackSyms, List.mem_cons, List.not_mem_nil, or_false] at hmem
  rcases hmem with rfl | rfl | rfl | rfl | rfl | rfl | rfl <;> decide

theorem atom_leftover_nil {P : List String} (hP : ∀ p ∈ P, p ∈ binOps ∧ 3 ≤ opClass p) :
    P = [] := by
  cases P with
  | nil => rfl
  | cons p P2 =>
    exfalso
    obtain ⟨hmem, hcl⟩ := hP p (by simp)
    simp only [binOps, List.mem_cons, List.not_mem_nil, or_false] at hmem
    rcases hmem with rfl | rfl | rfl | rfl | rfl <;> revert hcl <;> decide

theorem goodStack_cons {x : String} {S : List String} (hx : x ∈ stackSyms)
    (h : goodStack S) : goodStack (x :: S) := by
  intro p hp
  rcases List.mem_cons.1 hp with rfl | hp2
  · exact hx
  · exact h p hp2

theorem followOK_not_digit {rest : List Char} (h : followOK rest) :
    ∀ c t, rest = c :: t → c.isDigit = false := by
  intro c t hct
  rcases h with rfl | ⟨c0, t0, hc0t, hc0⟩
  · cases hct
  · rw [hct] at hc0t
    injection hc0t with h1 h2
    subst h1
    simp only [List.mem_cons, List.not_mem_nil, or_false] at hc0
    rcases hc0 with rfl | rfl | rfl | rfl | rfl | rfl <;> rfl

theorem renders_follow_ne {e : Expr} {l : Nat} {s : List Char} (h : Renders e l s)
    (rest : List Char) (x : Char) (hx : x ∈ [')', '+', '-', '*', '/', '^']) :
    ∀ d t, s ++ rest = d :: t → ¬ d = x := by
  obtain ⟨c0, t0, rfl, hc0⟩ := renders_head h
  intro d t hdt hdx
  rw [List.cons_append] at hdt
  injection hdt with h1 h2
  subst hdx
  rw [h1] at hc0
  simp only [List.mem_cons, List.not_mem_nil, or_false] at hx
  rcases hc0 with hdig | rfl
  · rcases hx with rfl | rfl | rfl | rfl | rfl | rfl <;> simp at hdig
  · rcases hx with h | h | h | h | h | h <;> cases h


theorem safeTop_mono {l l2 : Nat} {S : List String} (h : l ≤ l2) (hs : safeTop l S) :
    safeTop l2 S := by
  rcases hs with h2 | h2 | ⟨c, S2, hc, hcase⟩
  · exact Or.inl (by omega)
  · exact Or.inr (Or.inl h2)
  · refine Or.inr (Or.inr ⟨c, S2, hc, ?_⟩)
    rcases hcase with rfl | hcl
    · exact Or.inl rfl
    · exact Or.inr (by omega)

theorem binOps_ne_lparen {p : String} (hp : p ∈ binOps) : ¬ p = "(" := by
  simp only [binOps, List.mem_cons, List.not_mem_nil, or_false] at hp
  rcases hp with rfl | rfl | rfl | rfl | rfl <;> decide

set_option maxHeartbeats 1000000 in
theorem scan_render {e : Expr} {l : Nat} {s : List Char} (hr : Renders e l s) :
    ∀ (cs pre rest : List Char) (res : List Tok) (S : List String),
      cs = pre ++ s ++ rest →
      safeTop l S → goodStack S → followOK rest →
      ∃ (k : Nat) (out : List Tok) (P : List String),
        k ≤ s.length ∧
        out ++ P.map Tok.str = rpnOf e ∧
        (∀ p ∈ P, p ∈ binOps ∧ l ≤ opClass p) ∧
        ∀ fuel, scanLoop (k + fuel) cs ⟨res, S, pre.length⟩
          = scanFrom fuel cs (res ++ out) (P ++ S) (pre.length + s.length) := by
  induction hr with
  | num l2 ds h1 h2 =>
    intro cs pre rest res S hcs hsafe hgood hfollow
    refine ⟨1, [Tok.int (pyDigitsVal ds)], [], ?_, by simp [rpnOf], by simp, ?_⟩
    · have : ds ≠ [] := h1
      have : 0 < ds.length := List.length_pos.2 this
      omega
    · intro fuel
      subst hcs
      rw [show 1 + fuel = fuel + 1 from by omega]
      have h := scanLoop_at_digits pre rest ds res S fuel h1 h2 (followOK_not_digit hfollow)
      simpa using h
  | @add a b sa sb ha hb iha ihb =>
    intro cs pre rest res S hcs hsafe hgood hfollow
    obtain ⟨ka, outa, Pa, hka, houta, hPa, hruna⟩ :=
      iha cs pre ('+' :: (sb ++ rest)) res S (by rw [hcs]; simp) hsafe hgood
        (Or.inr ⟨'+', sb ++ rest, rfl, by decide⟩)
    have hcs2 : cs = (pre ++ sa) ++ '+' :: (sb ++ rest) := by rw [hcs]; simp
    have hpop := popWhileIn_split "+-*/^#" Pa S (res ++ outa)
      (fun p hp => binOps_popAll (hPa p hp).1) (stop_plus hsafe)
    have hplus := opPhase_at_plus (pre ++ sa) (sb ++ rest) (res ++ outa) (Pa ++ S)
      (renders_follow_ne hb rest '+' (by decide))
    rw [hpop] at hplus
    rw [← hcs2] at hplus
    rw [List.length_append] at hplus
    dsimp only at hplus
    obtain ⟨kb, outb, Pb, hkb, houtb, hPb, hrunb⟩ :=
      ihb cs (pre ++ sa ++ ['+']) rest (res ++ outa ++ Pa.map Tok.str) ("+" :: S)
        (by rw [hcs]; simp)
        (Or.inr (Or.inr ⟨"+", S, rfl, Or.inr (by decide)⟩))
        (goodStack_cons (by decide) hgood) hfollow
    rw [show (pre ++ sa ++ ['+']).length = pre.length + sa.length + 1 from by
      simp only [List.length_append, List.length_cons, List.length_nil]] at hrunb
    refine ⟨ka + kb, outa ++ Pa.map Tok.str ++ outb, Pb ++ ["+"], ?_, ?_, ?_, ?_⟩
    · simp only [List.length_append, List.length_cons]
      omega
    · rw [rpnOf, ← houta, ← houtb]
      simp [List.append_assoc]
    · intro p hp
      rcases List.mem_append.1 hp with hp | hp
      · exact ⟨(hPb p hp).1, by omega⟩
      · simp only [List.mem_singleton] at hp
        subst hp
        exact ⟨by decide, by decide⟩
    · intro fuel
      rw [Nat.add_assoc, hruna (kb + fuel), scanFrom_state hplus, hrunb fuel]
      simp only [List.append_assoc, List.length_append, List.length_cons]
      rw [show pre.length + sa.length + 1 + sb.length
            = pre.length + (sa.length + (sb.length + 1)) from by omega]
      rfl
  | @sub a b sa sb ha hb iha ihb =>
    intro cs pre rest res S hcs hsafe hgood hfollow
    obtain ⟨ka, outa, Pa, hka, houta, hPa, hruna⟩ :=
      iha cs pre ('-' :: (sb ++ rest)) res S (by rw [hcs]; simp) hsafe hgood
        (Or.inr ⟨'-', sb ++ rest, rfl, by decide⟩)
    have hcs2 : cs = (pre ++ sa) ++ '-' :: (sb ++ rest) := by rw [hcs]; simp
    have hpop := popWhileIn_split "+-*/^#" Pa S (res ++ outa)
      (fun p hp => binOps_popAll (hPa p hp).1) (stop_plus hsafe)
    have hplus := opPhase_at_minus (pre ++ sa) (sb ++ rest) (res ++ outa) (Pa ++ S)
      (renders_follow_ne hb rest '-' (by decide))
    rw [hpop] at hplus
    rw [← hcs2] at hplus
    rw [List.length_append] at hplus
    dsimp only at hplus
    obtain ⟨kb, outb, Pb, hkb, houtb, hPb, hrunb⟩ :=
      ihb cs (pre ++ sa ++ ['-']) rest (res ++ outa ++ Pa.map Tok.str) ("-" :: S)
        (by rw [hcs]; simp)
        (Or.inr (Or.inr ⟨"-", S, rfl, Or.inr (by decide)⟩))
        (goodStack_cons (by decide) hgood) hfollow
    rw [show (pre ++ sa ++ ['-']).length = pre.length + sa.length + 1 from by
      simp only [List.length_append, List.length_cons, List.length_nil]] at hrunb
    refine ⟨ka + kb, outa ++ Pa.map Tok.str ++ outb, Pb ++ ["-"], ?_, ?_, ?_, ?_⟩
    · simp only [List.length_append, List.length_cons]
      omega
    · rw [rpnOf, ← houta, ← houtb]
      simp [List.append_assoc]
    · intro p hp
      rcases List.mem_append.1 hp with hp | hp
      · exact ⟨(hPb p hp).1, by omega⟩
      · simp only [List.mem_singleton] at hp
        subst hp
        exact ⟨by decide, by decide⟩
    · intro fuel
      rw [Nat.add_assoc, hruna (kb + fuel), scanFrom_state hplus, hrunb fuel]
      simp only [List.append_assoc, List.length_append, List.length_cons]
      rw [show pre.length + sa.length + 1 + sb.length
            = pre.length + (sa.length + (sb.length + 1)) from by omega]
      rfl
  | @mul l2 a b sa sb hl ha hb iha ihb =>
    intro cs pre rest res S hcs hsafe hgood hfollow
    have hsafe1 : safeTop 1 S := safeTop_mono hl hsafe
    obtain ⟨ka, outa, Pa, hka, houta, hPa, hruna⟩ :=
      iha cs pre ('*' :: (sb ++ rest)) res S (by rw [hcs]; simp) hsafe1 hgood
        (Or.inr ⟨'*', sb ++ rest, rfl, by decide⟩)
    have hcs2 : cs = (pre ++ sa) ++ '*' :: (sb ++ rest) := by rw [hcs]; simp
    have hpop := popWhileIn_split "*/^#" Pa S (res ++ outa)
      (fun p hp => binOps_popMul (hPa p hp).1 (hPa p hp).2) (stop_mul hsafe1 hgood)
    have hop := opPhase_at_mulDiv '*' (pre ++ sa) (sb ++ rest) (res ++ outa) (Pa ++ S)
      (Or.inl rfl) (renders_follow_ne hb rest '*' (by decide))
    rw [hpop] at hop
    rw [← hcs2] at hop
    rw [List.length_append] at hop
    rw [show String.singleton '*' = "*" from rfl] at hop
    dsimp only at hop
    obtain ⟨kb, outb, Pb, hkb, houtb, hPb, hrunb⟩ :=
      ihb cs (pre ++ sa ++ ['*']) rest (res ++ outa ++ Pa.map Tok.str) ("*" :: S)
        (by rw [hcs]; simp) (Or.inl (by omega))
        (goodStack_cons (by decide) hgood) hfollow
    rw [show (pre ++ sa ++ ['*']).length = pre.length + sa.length + 1 from by
      simp only [List.length_append, List.length_cons, List.length_nil]] at hrunb
    refine ⟨ka + kb, outa ++ Pa.map Tok.str ++ outb, Pb ++ ["*"], ?_, ?_, ?_, ?_⟩
    · simp only [List.length_append, List.length_cons]
      omega
    · rw [rpnOf, ← houta, ← houtb]
      simp [List.append_assoc]
    · intro p hp
      rcases List.mem_append.1 hp with hp | hp
      · refine ⟨(hPb p hp).1, ?_⟩
        have := (hPb p hp).2
        omega
      · simp only [List.mem_singleton] at hp
        subst hp
        refine ⟨by decide, ?_⟩
        rw [show opClass "*" = 1 from rfl]
        omega
    · intro fuel
      rw [Nat.add_assoc, hruna (kb + fuel), scanFrom_state hop, hrunb fuel]
      simp only [List.append_assoc, List.length_append, List.length_cons]
      rw [show pre.length + sa.length + 1 + sb.length
            = pre.length + (sa.length + (sb.length + 1)) from by omega]
      rfl
  | @div l2 a b sa sb hl ha hb iha ihb =>
    intro cs pre rest res S hcs hsafe hgood hfollow
    have hsafe1 : safeTop 1 S := safeTop_mono hl hsafe
    obtain ⟨ka, outa, Pa, hka, houta, hPa, hruna⟩ :=
      iha cs pre ('/' :: (sb ++ rest)) res S (by rw [hcs]; simp) hsafe1 hgood
        (Or.inr ⟨'/', sb ++ rest, rfl, by decide⟩)
    have hcs2 : cs = (pre ++ sa) ++ '/' :: (sb ++ rest) := by rw [hcs]; simp
    have hpop := popWhileIn_split "*/^#" Pa S (res ++ outa)
      (fun p hp => binOps_popMul (hPa p hp).1 (hPa p hp).2) (stop_mul hsafe1 hgood)
    have hop := opPhase_at_mulDiv '/' (pre ++ sa) (sb ++ rest) (res ++ outa) (Pa ++ S)
      (Or.inr rfl) (renders_follow_ne hb rest '/' (by decide))
    rw [hpop] at hop
    rw [← hcs2] at hop
    rw [List.length_append] at hop
    rw [show String.singleton '/' = "/" from rfl] at hop
    dsimp only at hop
    obtain ⟨kb, outb, Pb, hkb, houtb, hPb, hrunb⟩ :=
      ihb cs (pre ++ sa ++ ['/']) rest (res ++ outa ++ Pa.map Tok.str) ("/" :: S)
        (by rw [hcs]; simp) (Or.inl (by omega))
        (goodStack_cons (by decide) hgood) hfollow
    rw [show (pre ++ sa ++ ['/']).length = pre.length + sa.length + 1 from by
      simp only [List.length_append, List.length_cons, List.length_nil]] at hrunb
    refine ⟨ka + kb, outa ++ Pa.map Tok.str ++ outb, Pb ++ ["/"], ?_, ?_, ?_, ?_⟩
    · simp only [List.length_append, List.length_cons]
      omega
    · rw [rpnOf, ← houta, ← houtb]
      simp [List.append_assoc]
    · intro p hp
      rcases List.mem_append.1 hp with hp | hp
      · refine ⟨(hPb p hp).1, ?_⟩
        have := (hPb p hp).2
        omega
      · simp only [List.mem_singleton] at hp
        subst hp
        refine ⟨by decide, ?_⟩
        rw [show opClass "/" = 1 from rfl]
        omega
    · intro fuel
      rw [Nat.add_assoc, hruna (kb + fuel), scanFrom_state hop, hrunb fuel]
      simp only [List.append_assoc, List.length_append, List.length_cons]
      rw [show pre.length + sa.length + 1 + sb.length
            = pre.length + (sa.length + (sb.length + 1)) from by omega]
      rfl
  | @pow l2 a b sa sb hl ha hb iha ihb =>
    intro cs pre rest res S hcs hsafe hgood hfollow
    obtain ⟨ka, outa, Pa, hka, houta, hPa, hruna⟩ :=
      iha cs pre ('^' :: (sb ++ rest)) res S (by rw [hcs]; simp) (Or.inl (by omega)) hgood
        (Or.inr ⟨'^', sb ++ rest, rfl, by decide⟩)
    have hPa0 : Pa = [] := atom_leftover_nil hPa
    subst hPa0
    simp only [List.map_nil, List.append_nil, List.nil_append] at houta hruna
    have hcs2 : cs = (pre ++ sa) ++ '^' :: (sb ++ rest) := by rw [hcs]; simp
    have hop := opPhase_at_caret (pre ++ sa) (sb ++ rest) (res ++ outa) S
      (renders_follow_ne hb rest '^' (by decide)) (goodStack_no_hathash hgood)
    rw [← hcs2] at hop
    rw [List.length_append] at hop
    obtain ⟨kb, outb, Pb, hkb, houtb, hPb, hrunb⟩ :=
      ihb cs (pre ++ sa ++ ['^']) rest (res ++ outa) ("^" :: S)
        (by rw [hcs]; simp) (Or.inl (by omega))
        (goodStack_cons (by decide) hgood) hfollow
    rw [show (pre ++ sa ++ ['^']).length = pre.length + sa.length + 1 from by
      simp only [List.length_append, List.length_cons, List.length_nil]] at hrunb
    refine ⟨ka + kb, outa ++ outb, Pb ++ ["^"], ?_, ?_, ?_, ?_⟩
    · simp only [List.length_append, List.length_cons]
      omega
    · rw [rpnOf, ← houta, ← houtb]
      simp [List.append_assoc]
    · intro p hp
      rcases List.mem_append.1 hp with hp | hp
      · refine ⟨(hPb p hp).1, ?_⟩
        have := (hPb p hp).2
        omega
      · simp only [List.mem_singleton] at hp
        subst hp
        refine ⟨by decide, ?_⟩
        rw [show opClass "^" = 2 from rfl]
        omega
    · intro fuel
      rw [Nat.add_assoc, hruna (kb + fuel), scanFrom_state hop, hrunb fuel]
      simp only [List.append_assoc, List.length_append, List.length_cons]
      rw [show pre.length + sa.length + 1 + sb.length
            = pre.length + (sa.length + (sb.length + 1)) from by omega]
      rfl
  | @paren l2 e2 s2 h ih =>
    intro cs pre rest res S hcs hsafe hgood hfollow
    have hcs2 : cs = pre ++ '(' :: (s2 ++ ')' :: rest) := by rw [hcs]; simp
    have hcs3 : cs = (pre ++ '(' :: s2) ++ ')' :: rest := by rw [hcs]; simp
    have hlen3 : (pre ++ '(' :: s2).length = pre.length + 1 + s2.length := by
      simp only [List.length_append, List.length_cons]
      omega
    obtain ⟨k2, out2, P2, hk2, hout2, hP2, hrun2⟩ :=
      ih cs (pre ++ ['(']) (')' :: rest) res ("(" :: S) (by rw [hcs]; simp)
        (Or.inr (Or.inr ⟨"(", S, rfl, Or.inl rfl⟩)) (goodStack_cons (by decide) hgood)
        (Or.inr ⟨')', rest, rfl, by decide⟩)
    rw [show (pre ++ ['(']).length = pre.length + 1 from by simp] at hrun2
    have hrp := opPhase_at_rparen (pre ++ '(' :: s2) rest (res ++ out2) P2 S
      (fun p hp => binOps_ne_lparen (hP2 p hp).1)
    rw [← hcs3, hlen3] at hrp
    have hprev : pyInC (cs.getD (pre.length + 1 + s2.length + 1 - 1) ' ') "^*/+-(" = false := by
      rw [show pre.length + 1 + s2.length + 1 - 1 = pre.length + 1 + s2.length from by omega]
      rw [hcs3, ← hlen3, getD_at_boundary]
      decide
    have hfollow2 : cs.length ≤ pre.length + 1 + s2.length + 1 ∨
        (pre.length + 1 + s2.length + 1 < cs.length ∧
          (cs.getD (pre.length + 1 + s2.length + 1) ' ') ∈ [')', '+', '-', '*', '/', '^']) := by
      rcases hfollow with rfl | ⟨c0, t0, hrest0, hc0⟩
      · refine Or.inl ?_
        rw [hcs3]
        simp only [List.length_append, List.length_cons, List.length_nil]
        omega
      · refine Or.inr ⟨?_, ?_⟩
        · rw [hcs3, hrest0]
          simp only [List.length_append, List.length_cons]
          omega
        · rw [hcs3, hrest0, show pre.length + 1 + s2.length + 1
              = (pre ++ '(' :: s2).length + 1 from by rw [hlen3], getD_at_boundary1]
          exact hc0
    refine ⟨k2 + 2, out2 ++ P2.map Tok.str, [], ?_, ?_, by simp, ?_⟩
    · simp only [List.length_append, List.length_cons, List.length_nil]
      omega
    · simpa using hout2
    · intro fuel
      have e1 : scanLoop (k2 + 2 + fuel) cs ⟨res, S, pre.length⟩
          = scanLoop (k2 + (fuel + 1)) cs ⟨res, "(" :: S, pre.length + 1⟩ := by
        rw [hcs2, show k2 + 2 + fuel = (k2 + (fuel + 1)) + 1 from by omega]
        exact scanLoop_at_lparen pre (s2 ++ ')' :: rest) res S (k2 + (fuel + 1))
      have e2 := hrun2 (fuel + 1)
      have e3 : scanFrom (fuel + 1) cs (res ++ out2) (P2 ++ "(" :: S)
          (pre.length + 1 + s2.length)
          = scanLoop (fuel + 1) cs
              ⟨res ++ out2 ++ P2.map Tok.str, S, pre.length + 1 + s2.length + 1⟩ :=
        scanFrom_state hrp
      have e4 := scanLoop_bridge cs (res ++ out2 ++ P2.map Tok.str) S
        (pre.length + 1 + s2.length + 1) fuel (by omega) hprev hfollow2
      rw [e1, e2, e3, e4]
      simp only [List.append_assoc, List.nil_append, List.length_append, List.length_cons,
        List.length_nil]
      rw [show pre.length + 1 + s2.length + 1 = pre.length + (s2.length + 1 + 1) from by omega]

theorem infix_to_rpn_renders {e : Expr} {s : String} (h : Renders e 0 s.data) :
    infix_to_rpn s = some (rpnOf e) := by
  obtain ⟨k, out, P, hk, hout, hP, hrun⟩ :=
    scan_render h s.data [] [] [] [] (by simp) (Or.inr (Or.inl rfl))
      (by intro p hp; cases hp) (Or.inl rfl)
  simp only [List.length_nil, List.nil_append, List.append_nil, Nat.zero_add] at hrun
  unfold infix_to_rpn
  have hlen : s.length = s.data.length := rfl
  rw [show s.length + 1 = k + (s.data.length + 1 - k) from by omega]
  rw [hrun (s.data.length + 1 - k)]
  unfold scanFrom
  unfold opPhase
  rw [if_neg (by rintro ⟨h1, -⟩; omega)]
  unfold scanLoop
  rw [if_neg (by dsimp only; omega)]
  have hdrain := drain_split P out (fun p hp => binOps_ne_lparen (hP p hp).1)
  dsimp only
  rw [hdrain, hout]

theorem evalRpn_add_step (env : Env) (rest : List Tok) (stack : List PyVal) (x y : Int) :
    evalRpn env (Tok.str "+" :: rest) (.int y :: .int x :: stack)
      = evalRpn env rest (.int (x + y) :: stack) := by
  conv_lhs => unfold evalRpn
  simp [pyIn, contSub, startsWithList, pyAdd, Int.add_comm y x]

theorem evalRpn_sub_step (env : Env) (rest : List Tok) (stack : List PyVal) (x y : Int) :
    evalRpn env (Tok.str "-" :: rest) (.int y :: .int x :: stack)
      = evalRpn env rest (.int (x - y) :: stack) := by
  conv_lhs => unfold evalRpn
  simp [pyIn, contSub, startsWithList, pySub]

theorem evalRpn_mul_step (env : Env) (rest : List Tok) (stack : List PyVal) (x y : Int) :
    evalRpn env (Tok.str "*" :: rest) (.int y :: .int x :: stack)
      = evalRpn env rest (.int (x * y) :: stack) := by
  conv_lhs => unfold evalRpn
  simp [pyIn, contSub, startsWithList, pyMul, Int.mul_comm y x]

theorem evalRpn_pow_step (env : Env) (rest : List Tok) (stack : List PyVal) (x y : Int)
    (hy : 0 ≤ y) :
    evalRpn env (Tok.str "^" :: rest) (.int y :: .int x :: stack)
      = evalRpn env rest (.int (x ^ y.toNat) :: stack) := by
  conv_lhs => unfold evalRpn
  simp [pyIn, contSub, startsWithList, pyPow, hy]

theorem evalRpn_div_step (env : Env) (rest : List Tok) (stack : List PyVal) (x y : Int)
    (hy : ¬ y = 0) :
    evalRpn env (Tok.str "/" :: rest) (.int y :: .int x :: stack)
      = evalRpn env rest (.int (Int.fdiv x y) :: stack) := by
  conv_lhs => unfold evalRpn
  simp [pyIn, contSub, startsWithList, pyFloorDiv, hy]

theorem evalRpn_rpnOf (env : Env) :
    ∀ (e : Expr) (v : Int), evalE e = some v →
    ∀ (rest : List Tok) (stack : List PyVal),
      evalRpn env (rpnOf e ++ rest) stack = evalRpn env rest (.int v :: stack) := by
  intro e
  induction e with
  | num n =>
    intro v hv rest stack
    rw [show evalE (.num n) = some (n : Int) from rfl] at hv
    injection hv with hv
    subst hv
    rfl
  | add a b iha ihb =>
    intro v hv rest stack
    cases hva : evalE a with
    | none => simp [evalE, hva] at hv
    | some x =>
      cases hvb : evalE b with
      | none => simp [evalE, hva, hvb] at hv
      | some y =>
        have hv2 : v = x + y := by
          rw [evalE, hva, hvb] at hv
          injection hv with hv
          omega
        subst hv2
        rw [show rpnOf (.add a b) ++ rest
            = rpnOf a ++ (rpnOf b ++ (Tok.str "+" :: rest)) from by
          rw [rpnOf]; simp [List.append_assoc]]
        rw [iha x hva, ihb y hvb, evalRpn_add_step]
  | sub a b iha ihb =>
    intro v hv rest stack
    cases hva : evalE a with
    | none => simp [evalE, hva] at hv
    | some x =>
      cases hvb : evalE b with
      | none => simp [evalE, hva, hvb] at hv
      | some y =>
        have hv2 : v = x - y := by
          rw [evalE, hva, hvb] at hv
          injection hv with hv
          omega
        subst hv2
        rw [show rpnOf (.sub a b) ++ rest
            = rpnOf a ++ (rpnOf b ++ (Tok.str "-" :: rest)) from by
          rw [rpnOf]; simp [List.append_assoc]]
        rw [iha x hva, ihb y hvb, evalRpn_sub_step]
  | mul a b iha ihb =>
    intro v hv rest stack
    cases hva : evalE a with
    | none => simp [evalE, hva] at hv
    | some x =>
      cases hvb : evalE b with
      | none => simp [evalE, hva, hvb] at hv
      | some y =>
        have hv2 : v = x * y := by
          rw [evalE, hva, hvb] at hv
          injection hv with hv
          rw [hv]
        subst hv2
        rw [show rpnOf (.mul a b) ++ rest
            = rpnOf a ++ (rpnOf b ++ (Tok.str "*" :: rest)) from by
          rw [rpnOf]; simp [List.append_assoc]]
        rw [iha x hva, ihb y hvb, evalRpn_mul_step]
  | div a b iha ihb =>
    intro v hv rest stack
    cases hva : evalE a with
    | none => simp [evalE, hva] at hv
    | some x =>
      cases hvb : evalE b with
      | none => simp [evalE, hva, hvb] at hv
      | some y =>
        rw [evalE, hva, hvb] at hv
        dsimp only at hv
        by_cases hy : y = 0
        · rw [if_pos hy] at hv
          cases hv
        · rw [if_neg hy] at hv
          injection hv with hv
          subst hv
          rw [show rpnOf (.div a b) ++ rest
              = rpnOf a ++ (rpnOf b ++ (Tok.str "/" :: rest)) from by
            rw [rpnOf]; simp [List.append_assoc]]
          rw [iha x hva, ihb y hvb, evalRpn_div_step env rest stack x y hy]
  | pow a b iha ihb =>
    intro v hv rest stack
    cases hva : evalE a with
    | none => simp [evalE, hva] at hv
    | some x =>
      cases hvb : evalE b with
      | none => simp [evalE, hva, hvb] at hv
      | some y =>
        rw [evalE, hva, hvb] at hv
        dsimp only at hv
        by_cases hy : 0 ≤ y
        · rw [if_pos hy] at hv
          injection hv with hv
          subst hv
          rw [show rpnOf (.pow a b) ++ rest
              = rpnOf a ++ (rpnOf b ++ (Tok.str "^" :: rest)) from by
            rw [rpnOf]; simp [List.append_assoc]]
          rw [iha x hva, ihb y hvb, evalRpn_pow_step env rest stack x y hy]
        · rw [if_neg hy] at hv
          cases hv

/-- C1: for every well-formed infix expression over integer literals,
the binary operators, and balanced parentheses (formalised by the
standard precedence grammar `Renders`), converting to postfix with
`infix_to_rpn` and evaluating with `rpn_to_result` yields the value
that standard left-to-right, precedence-respecting integer arithmetic
(`evalE`) assigns to the expression; in particular 2+3*4 evaluates to
14 and (2+3)*4 to 20 (see the witness). -/
theorem well_formed_infix_standard_value :
    ∀ (e : Expr) (s : String) (v : Int) (env : Env),
      Renders e 0 s.data → evalE e = some v →
      parse_expression s env = some (.int v) := by
  intro e s v env hr hv
  unfold parse_expression
  rw [infix_to_rpn_renders hr]
  unfold rpn_to_result
  have h := evalRpn_rpnOf env e v hv [] []
  rw [List.append_nil] at h
  dsimp only
  rw [h]
  rfl

theorem well_formed_infix_standard_value_witness :
    parse_expression "2+3*4" (fun _ => none) = some (.int 14) ∧
    parse_expression "(2+3)*4" (fun _ => none) = some (.int 20) := by
  constructor
  · exact well_formed_infix_standard_value
      (.add (.num 2) (.mul (.num 3) (.num 4))) "2+3*4" 14 (fun _ => none)
      (Renders.add (Renders.num 0 ['2'] (by decide) (by decide))
        (Renders.mul (by decide) (Renders.num 1 ['3'] (by decide) (by decide))
          (Renders.num 2 ['4'] (by decide) (by decide))))
      (by decide)
  · exact well_formed_infix_standard_value
      (.mul (.add (.num 2) (.num 3)) (.num 4)) "(2+3)*4" 20 (fun _ => none)
      (Renders.mul (by decide)
        (Renders.paren (Renders.add (Renders.num 0 ['2'] (by decide) (by decide))
          (Renders.num 1 ['3'] (by decide) (by decide))))
        (Renders.num 2 ['4'] (by decide) (by decide)))
      (by decide)
